import Mathlib

/-!
# Verification of the supercontig extension engine (`src/main.py`)

Shallow embedding of the program's data model and operations:

* statuses and the `Fragment` / `Supercontig` records (Python dicts with
  `status` and `content` keys);
* `Searcher.find_successors` (the non-overlapping, case-insensitive scan
  performed by `re.findall(suffix + '(.{n})', read, re.IGNORECASE)`,
  modelled for suffixes that contain no regex metacharacters — the only
  suffixes produced by nucleotide data);
* `Supercontigs.is_overlapping_contig` (the anchored regex
  `([ACGT]{min,max})#\1` applied to `content + '#' + head`);
* the ranking `sorted([(y,x) for (x,y) in successors.items()])[::-1]`;
* `definitive_successor`, `branching_successors`;
* `Enhancer.start`, with the cooperative stop flag modelled as a function
  of the number of `isStopped` polls performed so far, and the unbounded
  `while` loop modelled with explicit fuel.  `stack.pop()` on an empty
  list (a reachable `IndexError`) is modelled by returning `none`.

Strings are lists of characters; machine integers are `Nat`/`Int`
(Python integers are unbounded, so no wrap-around is modelled).  The two
float thresholds of the configuration are modelled as exact integer
fractions; the float comparison `count / total >= threshold` is modelled
by the cross-multiplied integer comparison, which agrees with exact
rational arithmetic whenever `total > 0` (counts are at least 1, so the
total is positive whenever the successor list is nonempty, which is the
only situation in which the source performs the division).
-/

/-- Status constant `OPEN = 'open'` of `src/main.py`. -/
def OPEN : String := "open"

/-- Status constant `OVERLAPPING = 'overlapping'` of `src/main.py`. -/
def OVERLAPPING : String := "overlapping"

/-- Status constant `TOO_LONG = 'too_long'` of `src/main.py`. -/
def TOO_LONG : String := "too_long"

/-- Status constant `STUCK = 'stuck'` of `src/main.py`. -/
def STUCK : String := "stuck"

/-- Status constant `CLOSED = 'closed'` of `src/main.py`. -/
def CLOSED : String := "closed"

/-- Sequence data: a Python string, modelled as its list of characters. -/
abbrev Str := List Char

/-- A fragment ("contig"): the dict `{'status': ..., 'content': contig}`
built in `Supercontigs.read`. -/
structure Frag where
  status : String
  content : Str
deriving DecidableEq, Repr

/-- A supercontig: the dict `{'status': ..., 'content': [fragments]}`. -/
structure SuperC where
  status : String
  content : List Frag
deriving DecidableEq, Repr

/-- The configuration parameters consumed by the engine.  All values the
source reads with `int(...)` are `Nat` (they come from a config file of
decimal literals); the two `float(...)` thresholds are exact fractions
`(num, den)` with the intended value `num / den`. -/
structure Config where
  max_contig_length : Nat
  max_suffix_length : Nat
  min_suffix_length : Nat
  suffix_length_step : Nat
  successor_length : Nat
  definitive_successor_threshold : Int × Int
  definitive_successor_total_min : Nat
  branching_successor_threshold : Int × Int
  branching_successor_total_min : Nat
  branching_successor_max_count : Nat
  max_contig_amount : Nat
  overlapping_min : Nat
  overlapping_max : Nat

/-- The float comparison `count / total >= threshold` of
`definitive_successor` / `branching_successors`, as the exact
cross-multiplied comparison (equivalent for `total > 0`, `den > 0`). -/
def shareGe (count total : Nat) (thr : Int × Int) : Bool :=
  decide (thr.1 * (total : Int) ≤ (count : Int) * thr.2)

/-! ## Successor inference (`Searcher.find_successors`) -/

/-- Case-insensitive character comparison, as performed by
`re.IGNORECASE` on its literal pattern characters. -/
def ciEq (a b : Char) : Bool := a.toLower == b.toLower

/-- `ciPrefix pat s` : the literal pattern `pat` matches at the start of
`s`, case-insensitively. -/
def ciPrefix : Str → Str → Bool
  | [], _ => true
  | _ :: _, [] => false
  | p :: ps, c :: cs => ciEq p c && ciPrefix ps cs

/-- One read's contribution to `pattern.findall(read)` for the pattern
`suffix + '(.{n})'` with `re.IGNORECASE`: the list of captured
`n`-character windows of the non-overlapping left-to-right scan.  A
position matches when the suffix occurs there (case-insensitively) and
is followed by at least `n` further characters, none of which is a
newline (`.` does not match `'\n'`); the scan then resumes after the
captured window (after one character for a zero-width match, as
`findall` does).  Faithful to the source for suffixes without regex
metacharacters; the source interpolates the raw suffix into the regex. -/
def scanReadAux (suffix : Str) (n : Nat) : Nat → Str → List Str
  | _, [] => if suffix.isEmpty && n == 0 then [[]] else []
  | 0, _ :: _ => []
  | fuel + 1, c :: cs =>
    if ciPrefix suffix (c :: cs)
        && decide (suffix.length + n ≤ cs.length + 1)
        && (((c :: cs).drop suffix.length).take n).all (fun ch => ch ≠ '\n')
    then ((c :: cs).drop suffix.length).take n
          :: scanReadAux suffix n fuel (cs.drop (suffix.length + n - 1))
    else scanReadAux suffix n fuel cs

/-- `scanRead` proper: run the scan with fuel equal to the string's
length (the scan consumes at least one character per step, so the
`0, _ :: _` branch of the auxiliary function is never taken). -/
def scanRead (suffix : Str) (n : Nat) (s : Str) : List Str :=
  scanReadAux suffix n s.length s

/-- `successors[succ] += 1` (with insertion of a fresh key at the end,
as a Python dict does): the table is an insertion-ordered association
list. -/
def bump (tbl : List (Str × Nat)) (k : Str) : List (Str × Nat) :=
  match tbl with
  | [] => [(k, 1)]
  | (k', v) :: rest => if k' = k then (k, v + 1) :: rest else (k', v) :: bump rest k

/-- `Searcher.find_successors` (src/main.py lines 170-180): scan every
read of the database and tally the captured successors. -/
def find_successors (database : List Str) (suffix : Str) (successor_length : Nat) :
    List (Str × Nat) :=
  database.foldl (fun tbl read => (scanRead suffix successor_length read).foldl bump tbl) []

/-- Sum of the counts of a successor table. -/
def tableSum (tbl : List (Str × Nat)) : Nat := (tbl.map (fun p => p.2)).sum

/-! ## Ranking (`sorted([(y,x) for (x,y) in successors.items()])[::-1]`) -/

/-- Python string `<` : lexicographic comparison by code point. -/
def strLt : Str → Str → Bool
  | _, [] => false
  | [], _ :: _ => true
  | a :: as_, b :: bs =>
    if a.toNat < b.toNat then true
    else if b.toNat < a.toNat then false
    else strLt as_ bs

/-- Python string `<=`. -/
def strLe (a b : Str) : Bool := strLt a b || a == b

/-- Python tuple comparison `(count, string) <= (count, string)`. -/
def pairLe (a b : Nat × Str) : Bool :=
  if a.1 < b.1 then true
  else if b.1 < a.1 then false
  else strLe a.2 b.2

/-- The relation form of `pairLe`, for `List.insertionSort`. -/
def PairLeR (a b : Nat × Str) : Prop := pairLe a b = true

instance : DecidableRel PairLeR := fun a b => by unfold PairLeR; infer_instance

/-- The ranking applied by the engine (src/main.py line 223):
swap each `(succ, count)` entry to `(count, succ)`, sort ascending by
the tuple order, and reverse.  (`sorted` is a stable sort; on the
engine's tables all pairs are distinct — dict keys are unique — so any
sort w.r.t. the total tuple order produces the same list.) -/
def rankSuccessors (tbl : List (Str × Nat)) : List (Nat × Str) :=
  (List.insertionSort PairLeR (tbl.map (fun p => (p.2, p.1)))).reverse

/-! ## Candidate selection -/

/-- `definitive_successor` (src/main.py lines 225-233), taking the
already-ranked (descending) list. -/
def definitive_successor (succs : List (Nat × Str)) (threshold : Int × Int)
    (total_minimum : Nat) : Option Str :=
  match succs with
  | [] => none
  | top :: _ =>
    let total := tableSum (succs.map (fun p => (p.2, p.1)))
    if total < total_minimum then none
    else if shareGe top.1 total threshold then some top.2
    else none

/-- `branching_successors` (src/main.py lines 245-250), taking the
already-ranked (descending) list. -/
def branching_successors (succs : List (Nat × Str)) (threshold : Int × Int)
    (total_minimum : Nat) (max_count : Nat) : Option (List Str) :=
  match succs with
  | [] => none
  | _ :: _ =>
    let total := tableSum (succs.map (fun p => (p.2, p.1)))
    if total < total_minimum then none
    else some (((succs.filter (fun p => shareGe p.1 total threshold)).map
                  (fun p => p.2)).take max_count)

/-! ## Overlap index (`Supercontigs.is_overlapping_contig`) -/

/-- Characters accepted by the regex character class `[ACGT]`. -/
def acgtChar (c : Char) : Bool := c == 'A' || c == 'C' || c == 'G' || c == 'T'

/-- `re.match('([ACGT]{omin,omax})#\1', s) is not None`: with
backtracking, the anchored match succeeds iff some group length `l` with
`omin ≤ l ≤ omax` works: the first `l` characters are all in `[ACGT]`,
character `l` is `'#'`, and the `l` characters after it repeat the
group (which requires `s` to be at least `2l+1` long). -/
def opMatch (omin omax : Nat) (s : Str) : Bool :=
  (List.range (omax + 1)).any fun l =>
    decide (omin ≤ l) && (s.take l).all acgtChar
      && (s[l]? == some '#')
      && decide (2 * l + 1 ≤ s.length)
      && decide ((s.drop (l + 1)).take l = s.take l)

/-- `Supercontigs.is_overlapping_contig` (src/main.py lines 141-146):
try `content + '#' + head` against the overlap regex for the head
fragment (`content[0]`) of every supercontig that has at least one
fragment. -/
def is_overlapping_contig (arr : List SuperC) (omin omax : Nat) (contig : Frag) : Bool :=
  arr.any fun sc =>
    match sc.content with
    | [] => false
    | hd :: _ => opMatch omin omax (contig.content ++ '#' :: hd.content)

/-! ## Extension engine (`Enhancer.start`) -/

/-- `contig['content'][-suffix_length:]`: the last `suffix_length`
characters (the whole string when `suffix_length` is `0`, since
`-0 == 0`, or when it is at least the length). -/
def suffixSlice (s : Str) (l : Nat) : Str :=
  if l = 0 then s else s.drop (s.length - l)

/-- `range(hi, lo - 1, -step)` for `step > 0`: the values
`hi, hi - step, ...` that are `≥ lo`.  (`range` with step `0` raises in
Python; here it yields `[]`, a case no claim exercises.) -/
def rangeDownAux (lo step : Nat) : Nat → Nat → List Nat
  | 0, _ => []
  | fuel + 1, hi =>
    if hi < lo then []
    else hi :: (if lo + step ≤ hi then rangeDownAux lo step fuel (hi - step) else [])

/-- `rangeDown` proper: fuel `hi + 1` suffices, the value dropping by
`step ≥ 1` per element. -/
def rangeDown (hi lo step : Nat) : List Nat :=
  if step = 0 then [] else rangeDownAux lo step (hi + 1) hi

/-- The suffix lengths tried by one round of the engine
(src/main.py lines 216-218). -/
def suffixLens (cfg : Config) : List Nat :=
  rangeDown cfg.max_suffix_length cfg.min_suffix_length cfg.suffix_length_step

/-- The status update of the inspection step (src/main.py lines
204-208): two independent `if` statements, the first setting
`OVERLAPPING`, the second setting `TOO_LONG`. -/
def inspectStatus (overl tooLong : Bool) (st : String) : String :=
  let st1 := if overl then OVERLAPPING else st
  if tooLong then TOO_LONG else st1

/-- The push loop of a branching step (src/main.py lines 263-268):
for each candidate in ranked order, stop as soon as the budget is
reached, otherwise push a copy of the contig with the candidate
appended and count it.  The stack has its top at the END of the list,
exactly like the Python list. -/
def pushChildren (stack : List Frag) (count : Int) (maxAmt : Nat) (contig : Frag) :
    List Str → List Frag × Int
  | [] => (stack, count)
  | cand :: rest =>
    if (maxAmt : Int) ≤ count then (stack, count)
    else pushChildren (stack ++ [{ contig with content := contig.content ++ cand }])
      (count + 1) maxAmt contig rest

/-- Result of one run of the suffix-length `for` loop: the stack, the
loop's `contig` reference (the object the Python variable still points
at), whether that object is still the last stack element (it is until a
branching pops it), the budget counter, the `enhanced` flag, the number
of `isStopped` polls performed so far, and — instrumentation only — the
number of branching steps performed. -/
structure RoundRes where
  stack : List Frag
  c : Frag
  attached : Bool
  count : Int
  enhanced : Bool
  poll : Nat
  branches : Nat
deriving DecidableEq, Repr

/-- The suffix-length `for` loop (src/main.py lines 216-269).  One call
per round; `lens` is `suffixLens cfg`.  A definitive successor is
appended to the contig (updating the stack's last element while the
contig is still attached) and the loop breaks; a branching step pops
the last stack element (`none` on an empty stack — `IndexError` in the
source), pushes the surviving children and detaches the contig; the
flag is polled before each suffix length. -/
def roundLoop (db : List Str) (cfg : Config) (stopped : Nat → Bool) :
    List Nat → List Frag → Frag → Bool → Int → Bool → Nat → Option RoundRes
  | [], stack, c, att, count, enh, poll =>
    some ⟨stack, c, att, count, enh, poll, 0⟩
  | _l :: ls, stack, c, att, count, enh, poll =>
    if stopped poll then some ⟨stack, c, att, count, enh, poll + 1, 0⟩
    else
      let ranked := rankSuccessors
        (find_successors db (suffixSlice c.content _l) cfg.successor_length)
      match definitive_successor ranked cfg.definitive_successor_threshold
          cfg.definitive_successor_total_min with
      | some cand =>
        let c' := { c with content := c.content ++ cand }
        some ⟨if att then stack.dropLast ++ [c'] else stack, c', att, count, true,
          poll + 1, 0⟩
      | none =>
        match branching_successors ranked cfg.branching_successor_threshold
            cfg.branching_successor_total_min cfg.branching_successor_max_count with
        | some cands =>
          if 1 < cands.length then
            match stack with
            | [] => none
            | _ :: _ =>
              let pc := pushChildren stack.dropLast (count - 1) cfg.max_contig_amount c cands
              match roundLoop db cfg stopped ls pc.1 c false pc.2 true (poll + 1) with
              | none => none
              | some r => some { r with branches := r.branches + 1 }
          else roundLoop db cfg stopped ls stack c att count enh (poll + 1)
        | none => roundLoop db cfg stopped ls stack c att count enh (poll + 1)

/-- Append `extra` to the content of supercontig `i`
(`supercontig['content'] += extra` / `.append`). -/
def scAppend (arr : List SuperC) (i : Nat) (extra : List Frag) : List SuperC :=
  arr.modify (fun sc => { sc with content := sc.content ++ extra }) i

/-- The `while` stack loop (src/main.py lines 201-273) followed by the
final `supercontig['content'] += stack` (line 274), generic in the
round function so that the break-on-branching variant can reuse it.
`fuel` bounds the number of iterations (`none` on exhaustion); the flag
is polled once per iteration; the inspection step re-checks overlap
against the current, partially updated array. -/
def whileLoopG
    (roundF : List Frag → Frag → Bool → Int → Bool → Nat → Option RoundRes)
    (cfg : Config) (stopped : Nat → Bool) :
    Nat → List SuperC → Nat → List Frag → Int → Nat → Option (List SuperC × Nat)
  | fuel, arr, i, stack, count, poll =>
    match stack.getLast? with
    | none => some (scAppend arr i stack, poll)
    | some contig =>
      match fuel with
      | 0 => none
      | fuel' + 1 =>
        if stopped poll then some (scAppend arr i stack, poll + 1)
        else
          let overl := is_overlapping_contig arr cfg.overlapping_min
            cfg.overlapping_max contig
          let tooLong := decide (cfg.max_contig_length < contig.content.length)
          let c2 := { contig with status := inspectStatus overl tooLong contig.status }
          if c2.status ≠ OPEN then
            whileLoopG roundF cfg stopped fuel' (scAppend arr i [c2]) i
              stack.dropLast count (poll + 1)
          else
            match roundF stack c2 true count false (poll + 1) with
            | none => none
            | some r =>
              if r.enhanced then
                whileLoopG roundF cfg stopped fuel' arr i r.stack r.count r.poll
              else
                whileLoopG roundF cfg stopped fuel' arr i
                  (if r.attached then r.stack.dropLast ++ [{ r.c with status := STUCK }]
                    else r.stack)
                  r.count r.poll

/-- The supercontig `for` loop (src/main.py lines 190-199): poll the
flag before each supercontig (returning the whole array unchanged when
it is set), skip supercontigs whose status is not `OPEN`, otherwise
partition the fragments into the stack (the `OPEN` ones) and the kept
content, initialise the budget, and run the stack loop.  `rem` counts
the remaining indices (`rem + i = arr.length` at every call). -/
def enhLoopG
    (roundF : List Frag → Frag → Bool → Int → Bool → Nat → Option RoundRes)
    (cfg : Config) (stopped : Nat → Bool) (fuel : Nat) :
    Nat → List SuperC → Nat → Nat → Option (List SuperC × Nat)
  | 0, arr, _i, poll => some (arr, poll)
  | rem + 1, arr, i, poll =>
    if stopped poll then some (arr, poll + 1)
    else
      match arr[i]? with
      | none => none
      | some sc =>
        if sc.status ≠ OPEN then enhLoopG roundF cfg stopped fuel rem arr (i + 1) (poll + 1)
        else
          let stack := sc.content.filter (fun f => f.status = OPEN)
          let kept := sc.content.filter (fun f => ¬ f.status = OPEN)
          let arr' := arr.set i { sc with content := kept }
          let count : Int := (stack.length : Int) + (kept.length : Int)
          match whileLoopG roundF cfg stopped fuel arr' i stack count (poll + 1) with
          | none => none
          | some (arr'', poll'') => enhLoopG roundF cfg stopped fuel rem arr'' (i + 1) poll''

/-- `Enhancer.start` (src/main.py lines 189-274): run the engine over
the whole collection.  `stopped p` is the value of the global
`isStopped` flag at the `p`-th poll (a monotone function models a flag
set once by the signal handler); `fuel` bounds each supercontig's stack
loop. -/
def Enhancer.start (fuel : Nat) (db : List Str) (cfg : Config) (stopped : Nat → Bool)
    (arr : List SuperC) : Option (List SuperC) :=
  (enhLoopG (roundLoop db cfg stopped (suffixLens cfg)) cfg stopped fuel
    arr.length arr 0 0).map (fun p => p.1)

/-- Modelled from the spec (§4.3c, design note on post-branch dead
iterations): the variant of the suffix-length loop that exits
immediately once a branching step occurs, identical to `roundLoop`
otherwise. -/
def roundLoopBreak (db : List Str) (cfg : Config) (stopped : Nat → Bool) :
    List Nat → List Frag → Frag → Bool → Int → Bool → Nat → Option RoundRes
  | [], stack, c, att, count, enh, poll =>
    some ⟨stack, c, att, count, enh, poll, 0⟩
  | _l :: ls, stack, c, att, count, enh, poll =>
    if stopped poll then some ⟨stack, c, att, count, enh, poll + 1, 0⟩
    else
      let ranked := rankSuccessors
        (find_successors db (suffixSlice c.content _l) cfg.successor_length)
      match definitive_successor ranked cfg.definitive_successor_threshold
          cfg.definitive_successor_total_min with
      | some cand =>
        let c' := { c with content := c.content ++ cand }
        some ⟨if att then stack.dropLast ++ [c'] else stack, c', att, count, true,
          poll + 1, 0⟩
      | none =>
        match branching_successors ranked cfg.branching_successor_threshold
            cfg.branching_successor_total_min cfg.branching_successor_max_count with
        | some cands =>
          if 1 < cands.length then
            match stack with
            | [] => none
            | _ :: _ =>
              let pc := pushChildren stack.dropLast (count - 1) cfg.max_contig_amount c cands
              some ⟨pc.1, c, false, pc.2, true, poll + 1, 1⟩
          else roundLoopBreak db cfg stopped ls stack c att count enh (poll + 1)
        | none => roundLoopBreak db cfg stopped ls stack c att count enh (poll + 1)

/-- Modelled from the spec: `Enhancer.start` with the suffix-length
loop short-circuited on branching (`roundLoopBreak` in place of
`roundLoop`). -/
def Enhancer.startBreak (fuel : Nat) (db : List Str) (cfg : Config) (stopped : Nat → Bool)
    (arr : List SuperC) : Option (List SuperC) :=
  (enhLoopG (roundLoopBreak db cfg stopped (suffixLens cfg)) cfg stopped fuel
    arr.length arr 0 0).map (fun p => p.1)

/-! ## Auxiliary definitions for the claims -/

/-- Modelled from the spec: the quantity claim C3 compares against —
the number of non-overlapping, case-insensitive, left-to-right literal
occurrences of `suffix` in `s`.  Each occurrence is counted and the
scan resumes right after it (after one character for an empty suffix,
which also occurs once at the end of the string, as for Python's
`str.count`). -/
def countOccCIAux (suffix : Str) : Nat → Str → Nat
  | _, [] => if suffix.isEmpty then 1 else 0
  | 0, _ :: _ => 0
  | fuel + 1, c :: cs =>
    if ciPrefix suffix (c :: cs)
    then 1 + countOccCIAux suffix fuel (cs.drop (suffix.length - 1))
    else countOccCIAux suffix fuel cs

/-- `countOccCI` proper: fuel equal to the string's length suffices. -/
def countOccCI (suffix : Str) (s : Str) : Nat :=
  countOccCIAux suffix s.length s

/-- `a` ranks strictly before `b` in the sense of claim C6: higher
count first; among equal counts the lexicographically greater successor
string first. -/
def rankPrec (a b : Nat × Str) : Prop :=
  b.1 < a.1 ∨ (b.1 = a.1 ∧ strLt b.2 a.2 = true)

/-- The strict ascending tuple order underlying the ranking. -/
def pairLt (a b : Nat × Str) : Prop :=
  a.1 < b.1 ∨ (a.1 = b.1 ∧ strLt a.2 b.2 = true)

/-- A configuration shared by the concrete counterexample runs: one
suffix length (`1`), definitive extension unreachable (its total
minimum is 100), branching threshold 0 with total minimum 1. -/
def cexCfg : Config := {
  max_contig_length := 10
  max_suffix_length := 1
  min_suffix_length := 1
  suffix_length_step := 1
  successor_length := 1
  definitive_successor_threshold := (2, 1)
  definitive_successor_total_min := 100
  branching_successor_threshold := (0, 1)
  branching_successor_total_min := 1
  branching_successor_max_count := 3
  max_contig_amount := 10
  overlapping_min := 50
  overlapping_max := 70 }

/-- Read corpus for the branching counterexamples: after `"A"` one
observes `"C"` once and `"G"` once. -/
def cexDb : List Str := [['A', 'C'], ['A', 'G']]

/-- Configuration for the C1 counterexample: a content of length 3 is
both inside the overlap window `[3, 5]` and longer than
`max_contig_length = 2`. -/
def c1Cfg : Config := { cexCfg with
  max_contig_length := 2
  overlapping_min := 3
  overlapping_max := 5 }

/-- Collection for the C1 counterexample: an open supercontig whose
single open fragment `"AAA"` equals the length-3 head of the closed
supercontig's head fragment `"AAATTT"`. -/
def c1Arr : List SuperC :=
  [⟨OPEN, [⟨OPEN, ['A', 'A', 'A']⟩]⟩,
   ⟨CLOSED, [⟨CLOSED, ['A', 'A', 'A', 'T', 'T', 'T']⟩]⟩]

/-- Configuration for the C7 counterexample: two suffix lengths `[2, 1]`
so that a short fragment branches twice in one round, and
`max_contig_length = 1` so every child finalizes immediately. -/
def c7Cfg : Config := { cexCfg with
  max_contig_length := 1
  max_suffix_length := 2 }

/-- Configuration for the C5 counterexample: a budget of 1 fragment. -/
def c5Cfg : Config := { cexCfg with max_contig_amount := 1 }

/-- Collection for the C5 counterexample: the supercontig already
tracks 3 fragments (one open, two finalized), above the budget of 1. -/
def c5Arr : List SuperC :=
  [⟨OPEN, [⟨OPEN, ['A']⟩, ⟨TOO_LONG, ['T']⟩, ⟨TOO_LONG, ['G']⟩]⟩]

/-! ## Helper lemmas -/

/-- Adding one observation to a successor table raises the total count
by one. -/
theorem tableSum_cons (p : Str × Nat) (t : List (Str × Nat)) :
    tableSum (p :: t) = p.2 + tableSum t := by
  simp [tableSum]

/-- `bump` increases the sum of counts by exactly one. -/
theorem tableSum_bump (t : List (Str × Nat)) (k : Str) :
    tableSum (bump t k) = tableSum t + 1 := by
  induction t with
  | nil => rfl
  | cons p rest ih =>
    obtain ⟨k', v⟩ := p
    unfold bump
    by_cases h : k' = k
    · rw [if_pos h, tableSum_cons, tableSum_cons]
      omega
    · rw [if_neg h, tableSum_cons, tableSum_cons, ih]
      omega

/-- Folding `bump` over a list of observations adds the list's length
to the sum of counts. -/
theorem tableSum_foldl_bump (l : List Str) :
    ∀ t, tableSum (l.foldl bump t) = tableSum t + l.length := by
  induction l with
  | nil => intro t; simp
  | cons k rest ih =>
    intro t
    simp only [List.foldl_cons, List.length_cons]
    rw [ih, tableSum_bump]
    omega

/-- Setting an index to the value it already holds is the identity. -/
theorem set_getElem?_self {α : Type} : ∀ (l : List α) (i : Nat) (x : α),
    l[i]? = some x → l.set i x = l
  | [], i, x, h => by simp at h
  | a :: t, 0, x, h => by
    simp only [List.getElem?_cons_zero, Option.some.injEq] at h
    simp [List.set, h]
  | a :: t, i + 1, x, h => by
    simp only [List.getElem?_cons_succ] at h
    simp [List.set, set_getElem?_self t i x h]

/-- `List.modify` with a pointwise-identity function is the identity. -/
theorem modify_id_of_eq {α : Type} (f : α → α) (hf : ∀ a, f a = a) :
    ∀ (l : List α) (i : Nat), List.modify f i l = l
  | [], _ => by simp
  | a :: t, 0 => by simp [List.modify_zero_cons, hf]
  | a :: t, i + 1 => by simp [List.modify_succ_cons, modify_id_of_eq f hf t i]

/-- Appending no fragments to a supercontig changes nothing. -/
theorem scAppend_nil (arr : List SuperC) (i : Nat) : scAppend arr i [] = arr := by
  unfold scAppend
  exact modify_id_of_eq _ (fun sc => by cases sc; simp) arr i

/-! ## Claim C1 — OVERLAPPING versus TOO_LONG at inspection -/

/-- C1 counterexample.  The claim says a fragment that closes a loop is
finalized `OVERLAPPING` even when its content also exceeds
`max_contig_length`.  In the source the two checks are two independent
`if` statements, so `TOO_LONG` overwrites `OVERLAPPING`: with overlap
window `[3, 5]` and `max_contig_length = 2`, the open fragment `"AAA"`
matches the head `"AAATTT"` of the closed supercontig (second conjunct,
stated against the array as it stands at inspection time, the open
fragment being detached onto the stack), its length 3 exceeds 2 (third
conjunct), yet the engine finalizes it `TOO_LONG`, not `OVERLAPPING`. -/
theorem c1_counterexample :
    Enhancer.start 10 [] c1Cfg (fun _ => false) c1Arr =
      some [⟨OPEN, [⟨TOO_LONG, ['A', 'A', 'A']⟩]⟩,
            ⟨CLOSED, [⟨CLOSED, ['A', 'A', 'A', 'T', 'T', 'T']⟩]⟩]
    ∧ is_overlapping_contig
        [⟨OPEN, []⟩, ⟨CLOSED, [⟨CLOSED, ['A', 'A', 'A', 'T', 'T', 'T']⟩]⟩]
        3 5 ⟨OPEN, ['A', 'A', 'A']⟩ = true
    ∧ c1Cfg.max_contig_length < (['A', 'A', 'A'] : Str).length
    ∧ TOO_LONG ≠ OVERLAPPING := by
  refine ⟨by decide, by decide, by decide, by decide⟩

/-- C1 (amended): at the inspection step on an `OPEN` fragment the
status becomes `TOO_LONG` whenever the content is over-long (this
overrides a positive loop-closure check), `OVERLAPPING` exactly when
the loop-closure check is positive and the content is not over-long,
and stays `OPEN` otherwise. -/
theorem c1_amended : ∀ overl tooLong : Bool,
    (inspectStatus overl tooLong OPEN = TOO_LONG ↔ tooLong = true) ∧
    (inspectStatus overl tooLong OPEN = OVERLAPPING ↔ (overl = true ∧ tooLong = false)) ∧
    (inspectStatus overl tooLong OPEN = OPEN ↔ (overl = false ∧ tooLong = false)) := by
  decide

/-! ## Claim C2 — behaviour under the stop flag -/

/-- C2 counterexample.  The claim says a fragment whose inspection is
abandoned because the flag was observed before a suffix-length attempt
keeps status `OPEN`.  In the source the `for` loop breaks with
`enhanced` still false, so the fragment is marked `STUCK` before the
stack is dumped: with the flag set from the third poll on (the poll of
the first suffix-length attempt), the single open fragment comes out
`STUCK`, not `OPEN`. -/
theorem c2_counterexample :
    Enhancer.start 10 [] cexCfg (fun p => decide (2 ≤ p)) [⟨OPEN, [⟨OPEN, ['A']⟩]⟩] =
      some [⟨OPEN, [⟨STUCK, ['A']⟩]⟩]
    ∧ STUCK ≠ OPEN := by
  refine ⟨by decide, by decide⟩

/-- C2 (amended): when the stop flag is observed at the top of the
stack loop, the loop exits and every fragment still on the stack is
appended to the supercontig's content exactly once, in stack order,
with exactly the status it had at that moment (no fragment lost, none
duplicated); a fragment whose round was abandoned by the flag before
any extension attempt has, however, already been marked `STUCK` by the
round's fall-through, as the counterexample records. -/
theorem c2_amended
    (roundF : List Frag → Frag → Bool → Int → Bool → Nat → Option RoundRes)
    (cfg : Config) (stopped : Nat → Bool) (fuel : Nat) (arr : List SuperC) (i : Nat)
    (stack : List Frag) (count : Int) (poll : Nat)
    (hne : stack ≠ []) (hstop : stopped poll = true) :
    whileLoopG roundF cfg stopped (fuel + 1) arr i stack count poll =
      some (scAppend arr i stack, poll + 1) := by
  obtain ⟨c, hc⟩ : ∃ c, stack.getLast? = some c := by
    cases h : stack.getLast? with
    | none => exact absurd (List.getLast?_eq_none_iff.mp h) hne
    | some c => exact ⟨c, rfl⟩
  unfold whileLoopG
  rw [hc, hstop]
  simp

/-- C2 amended, witness: a one-element stack with the flag already set
is dumped unchanged. -/
theorem c2_amended_witness :
    ([⟨OPEN, ['A']⟩] : List Frag) ≠ [] ∧
    whileLoopG (roundLoop [] cexCfg (fun _ => true) [1]) cexCfg (fun _ => true) 4
        [⟨OPEN, []⟩] 0 [⟨OPEN, ['A']⟩] 1 7 =
      some (scAppend [⟨OPEN, []⟩] 0 [⟨OPEN, ['A']⟩], 8) :=
  ⟨by decide,
   c2_amended (roundLoop [] cexCfg (fun _ => true) [1]) cexCfg (fun _ => true) 3
     [⟨OPEN, []⟩] 0 [⟨OPEN, ['A']⟩] 1 7 (by decide) rfl⟩

/-! ## Claim C5 — the fragment budget -/

/-- C5 counterexample.  The claim says the tracked count
(stack plus finalized fragments) never exceeds `max_contig_amount`
right after a branching step.  When the supercontig starts with more
fragments than the budget (here 3 against a budget of 1), a branching
step only pops the original and pushes nothing, leaving the tracked
count at 2, still above the budget — and the engine run confirms it:
the final content keeps 2 fragments (the branching fragment itself
vanishes, its candidates all dropped).  The second conjunct replays the
branching round exactly as it occurs inside the run. -/
theorem c5_counterexample :
    Enhancer.start 10 cexDb c5Cfg (fun _ => false) c5Arr =
      some [⟨OPEN, [⟨TOO_LONG, ['T']⟩, ⟨TOO_LONG, ['G']⟩]⟩]
    ∧ roundLoop cexDb c5Cfg (fun _ => false) [1] [⟨OPEN, ['A']⟩] ⟨OPEN, ['A']⟩ true 3 false 2
        = some ⟨[], ⟨OPEN, ['A']⟩, false, 2, true, 3, 1⟩
    ∧ (c5Cfg.max_contig_amount : Int) < 2 := by
  refine ⟨by decide, by decide, by decide⟩

/-- C5 (amended): the push loop of a branching step never pushes a
child while the tracked count is at or above `max_contig_amount`
(first conjunct: at or above the budget it pushes nothing at all), and
if the count on entry is at most the budget it still is on exit.  The
claim's blanket bound fails only when the supercontig tracks more
fragments than the budget before the branching step, as in the
counterexample. -/
theorem c5_amended (stack : List Frag) (count : Int) (maxAmt : Nat) (c : Frag)
    (cands : List Str) :
    ((maxAmt : Int) ≤ count → pushChildren stack count maxAmt c cands = (stack, count))
    ∧ (count ≤ (maxAmt : Int) → (pushChildren stack count maxAmt c cands).2 ≤ (maxAmt : Int)) := by
  induction cands generalizing stack count with
  | nil => exact ⟨fun _ => rfl, fun h => h⟩
  | cons cand rest ih =>
    constructor
    · intro h
      unfold pushChildren
      rw [if_pos h]
    · intro h
      unfold pushChildren
      by_cases hge : (maxAmt : Int) ≤ count
      · rw [if_pos hge]; exact h
      · rw [if_neg hge]
        exact (ih _ _).2 (by omega)

/-- C5 amended, witness: with the count already at the budget, the push
loop leaves the stack and the count untouched. -/
theorem c5_amended_witness :
    (1 : Int) ≤ ((1 : Nat) : Int) ∧
    pushChildren [] 1 1 ⟨OPEN, ['A']⟩ [['G'], ['C']] = ([], 1) :=
  ⟨by decide, (c5_amended [] 1 1 ⟨OPEN, ['A']⟩ [['G'], ['C']]).1 (by decide)⟩

/-! ## Claim C10 — short contents query the whole content -/

/-- C10: when a fragment's content is no longer than the current suffix
length, the engine's query slice `content[-suffix_length:]` is the
entire content, so every suffix length at least the content's length
issues the identical query. -/
theorem c10_whole_content_query (s : Str) (l : Nat) (h : s.length ≤ l) :
    suffixSlice s l = s := by
  unfold suffixSlice
  split
  · rfl
  · have hz : s.length - l = 0 := by omega
    rw [hz, List.drop_zero]

/-- C10 witness: a length-2 content sliced at suffix length 5. -/
theorem c10_whole_content_query_witness :
    (['A', 'C'] : Str).length ≤ 5 ∧ suffixSlice ['A', 'C'] 5 = ['A', 'C'] :=
  ⟨by decide, c10_whole_content_query ['A', 'C'] 5 (by decide)⟩

/-! ## Claim C3 — what the counts of `find_successors` sum to -/

/-- C3 counterexample.  The claim says the counts sum to the number of
non-overlapping literal occurrences of the suffix.  The source's regex
consumes the captured window as part of each match and discards
occurrences not followed by a full window, so on the read `"AA"` with
suffix `"A"` and window length 1 the table is `{"A": 1}` (sum 1) while
the suffix occurs twice. -/
theorem c3_counterexample :
    tableSum (find_successors [['A', 'A']] ['A'] 1) ≠
      ([['A', 'A']].map (fun r => countOccCI ['A'] r)).sum
    ∧ tableSum (find_successors [['A', 'A']] ['A'] 1) = 1
    ∧ ([['A', 'A']].map (fun r => countOccCI ['A'] r)).sum = 2 := by
  refine ⟨by decide, by decide, by decide⟩

/-- C3 (amended): the counts returned by `find_successors` sum to the
number of matches of the full pattern — occurrences of the suffix that
are followed by a complete `successor_length`-character window, found
by the left-to-right scan that resumes after each captured window —
which can be fewer than the number of non-overlapping occurrences of
the suffix alone. -/
theorem c3_sum_counts_eq_matches (db : List Str) (suffix : Str) (n : Nat) :
    tableSum (find_successors db suffix n) =
      (db.map (fun r => (scanRead suffix n r).length)).sum := by
  suffices h : ∀ t, tableSum
      (db.foldl (fun tbl read => (scanRead suffix n read).foldl bump tbl) t)
      = tableSum t + (db.map (fun r => (scanRead suffix n r).length)).sum by
    have h0 := h []
    simpa [find_successors, tableSum] using h0
  induction db with
  | nil => intro t; simp
  | cons read rest ih =>
    intro t
    simp only [List.foldl_cons, List.map_cons, List.sum_cons]
    rw [ih, tableSum_foldl_bump]
    omega

/-! ## Order lemmas for the ranking -/

/-- Characters with equal code points are equal. -/
theorem charEq_of_toNat_eq {a b : Char} (h : a.toNat = b.toNat) : a = b :=
  Char.ext (UInt32.ext h)

/-- The code-point string order is transitive. -/
theorem strLt_trans : ∀ (a b c : Str),
    strLt a b = true → strLt b c = true → strLt a c = true := by
  intro a
  induction a with
  | nil =>
    intro b c hab hbc
    cases c with
    | nil => cases b <;> simp [strLt] at hbc
    | cons y ys => simp [strLt]
  | cons x xs ih =>
    intro b c hab hbc
    cases b with
    | nil => simp [strLt] at hab
    | cons y ys =>
      cases c with
      | nil => simp [strLt] at hbc
      | cons z zs =>
        simp only [strLt] at hab hbc ⊢
        by_cases h1 : x.toNat < y.toNat
        · by_cases h2 : y.toNat < z.toNat
          · rw [if_pos (by omega)]
          · by_cases h3 : z.toNat < y.toNat
            · rw [if_neg h2, if_pos h3] at hbc
              exact absurd hbc (by simp)
            · rw [if_pos (by omega)]
        · by_cases h1' : y.toNat < x.toNat
          · rw [if_neg h1, if_pos h1'] at hab
            exact absurd hab (by simp)
          · rw [if_neg h1, if_neg h1'] at hab
            by_cases h2 : y.toNat < z.toNat
            · rw [if_pos (by omega)]
            · by_cases h3 : z.toNat < y.toNat
              · rw [if_neg h2, if_pos h3] at hbc
                exact absurd hbc (by simp)
              · rw [if_neg h2, if_neg h3] at hbc
                rw [if_neg (by omega), if_neg (by omega)]
                exact ih ys zs hab hbc

/-- Any two strings compare: less, equal, or greater. -/
theorem strLt_or (a : Str) : ∀ b : Str,
    strLt a b = true ∨ a = b ∨ strLt b a = true := by
  induction a with
  | nil =>
    intro b
    cases b with
    | nil => exact Or.inr (Or.inl rfl)
    | cons y ys => exact Or.inl (by simp [strLt])
  | cons x xs ih =>
    intro b
    cases b with
    | nil => exact Or.inr (Or.inr (by simp [strLt]))
    | cons y ys =>
      by_cases h1 : x.toNat < y.toNat
      · exact Or.inl (by simp [strLt, h1])
      · by_cases h2 : y.toNat < x.toNat
        · exact Or.inr (Or.inr (by simp [strLt, h2]))
        · have hxy : x = y := charEq_of_toNat_eq (by omega)
          rcases ih ys with h | h | h
          · exact Or.inl (by simp [strLt, h1, h2, h])
          · exact Or.inr (Or.inl (by rw [hxy, h]))
          · exact Or.inr (Or.inr (by subst hxy; simp [strLt, h1, h2, h]))

/-- `strLe` splits into strict order or equality. -/
theorem strLe_iff (a b : Str) : strLe a b = true ↔ strLt a b = true ∨ a = b := by
  simp [strLe]

/-- `strLe` is transitive. -/
theorem strLe_trans {a b c : Str} (hab : strLe a b = true) (hbc : strLe b c = true) :
    strLe a c = true := by
  rcases (strLe_iff a b).mp hab with h1 | h1
  · rcases (strLe_iff b c).mp hbc with h2 | h2
    · exact (strLe_iff a c).mpr (Or.inl (strLt_trans a b c h1 h2))
    · subst h2; exact (strLe_iff a b).mpr (Or.inl h1)
  · subst h1; exact hbc

instance : IsTotal (Nat × Str) PairLeR := by
  constructor
  intro a b
  unfold PairLeR pairLe
  rcases Nat.lt_trichotomy a.1 b.1 with h | h | h
  · left; rw [if_pos h]
  · rcases strLt_or a.2 b.2 with hs | hs | hs
    · left
      rw [if_neg (by omega), if_neg (by omega)]
      exact (strLe_iff _ _).mpr (Or.inl hs)
    · left
      rw [if_neg (by omega), if_neg (by omega)]
      exact (strLe_iff _ _).mpr (Or.inr hs)
    · right
      rw [if_neg (by omega), if_neg (by omega)]
      exact (strLe_iff _ _).mpr (Or.inl hs)
  · right; rw [if_pos h]

instance : IsTrans (Nat × Str) PairLeR := by
  constructor
  intro a b c hab hbc
  unfold PairLeR pairLe at hab hbc ⊢
  by_cases h1 : a.1 < b.1
  · by_cases h2 : b.1 < c.1
    · rw [if_pos (by omega)]
    · by_cases h3 : c.1 < b.1
      · rw [if_neg h2, if_pos h3] at hbc
        exact absurd hbc (by simp)
      · rw [if_pos (by omega)]
  · by_cases h1' : b.1 < a.1
    · rw [if_neg h1, if_pos h1'] at hab
      exact absurd hab (by simp)
    · rw [if_neg h1, if_neg h1'] at hab
      by_cases h2 : b.1 < c.1
      · rw [if_pos (by omega)]
      · by_cases h3 : c.1 < b.1
        · rw [if_neg h2, if_pos h3] at hbc
          exact absurd hbc (by simp)
        · rw [if_neg h2, if_neg h3] at hbc
          rw [if_neg (by omega), if_neg (by omega)]
          exact strLe_trans hab hbc

/-- Membership in a bumped table's key list. -/
theorem bump_keys_mem (t : List (Str × Nat)) (k a : Str) :
    (a ∈ (bump t k).map Prod.fst ↔ a ∈ t.map Prod.fst ∨ a = k) := by
  induction t with
  | nil => simp [bump]
  | cons p rest ih =>
    obtain ⟨k', v⟩ := p
    unfold bump
    by_cases h : k' = k
    · subst h
      rw [if_pos rfl]
      simp only [List.map_cons, List.mem_cons]
      tauto
    · rw [if_neg h]
      simp only [List.map_cons, List.mem_cons]
      rw [ih]
      tauto

/-- `bump` keeps the key list duplicate-free. -/
theorem bump_keys_nodup (t : List (Str × Nat)) (k : Str)
    (h : (t.map Prod.fst).Nodup) : ((bump t k).map Prod.fst).Nodup := by
  induction t with
  | nil => simp [bump]
  | cons p rest ih =>
    obtain ⟨k', v⟩ := p
    simp only [List.map_cons, List.nodup_cons] at h
    unfold bump
    by_cases hk : k' = k
    · subst hk
      simpa [List.nodup_cons] using h
    · rw [if_neg hk]
      simp only [List.map_cons, List.nodup_cons]
      refine ⟨?_, ih h.2⟩
      rw [bump_keys_mem]
      push_neg
      exact ⟨h.1, hk⟩

/-- Folding `bump` keeps the key list duplicate-free. -/
theorem foldl_bump_keys_nodup (l : List Str) :
    ∀ t, (t.map Prod.fst).Nodup → ((l.foldl bump t).map Prod.fst).Nodup := by
  induction l with
  | nil => intro t h; exact h
  | cons k rest ih =>
    intro t h
    exact ih (bump t k) (bump_keys_nodup t k h)

/-- The table built by `find_successors` has pairwise-distinct keys
(it is a Python dict). -/
theorem find_successors_keys_nodup (db : List Str) (suffix : Str) (n : Nat) :
    ((find_successors db suffix n).map Prod.fst).Nodup := by
  unfold find_successors
  suffices h : ∀ t, (t.map Prod.fst).Nodup →
      (((db.foldl (fun tbl read => (scanRead suffix n read).foldl bump tbl) t)).map
        Prod.fst).Nodup from h [] (by simp)
  induction db with
  | nil => intro t h; exact h
  | cons read rest ih =>
    intro t h
    exact ih _ (foldl_bump_keys_nodup (scanRead suffix n read) t h)

/-! ## Claim C6 — the ranking is a strict total order -/

/-- C6: on every successor table produced by `find_successors`, the
engine's ranking produces a list that is strictly ordered by "higher
count first, ties broken by lexicographically greater successor string
first", and that ranking is a permutation of the (count, successor)
pairs of the table — so any two entries are ordered by exactly this
rule. -/
theorem c6_ranking_strict_order (db : List Str) (suffix : Str) (n : Nat) :
    List.Pairwise rankPrec (rankSuccessors (find_successors db suffix n)) ∧
    (rankSuccessors (find_successors db suffix n)).Perm
      ((find_successors db suffix n).map (fun p => (p.2, p.1))) := by
  have hkeys := find_successors_keys_nodup db suffix n
  have htblnodup : (find_successors db suffix n).Nodup := List.Nodup.of_map Prod.fst hkeys
  have hswapinj : Function.Injective (fun p : Str × Nat => (p.2, p.1)) := by
    intro p q h
    cases p; cases q
    simp only [Prod.mk.injEq] at h
    simp [h.1, h.2]
  have hswap : ((find_successors db suffix n).map (fun p => (p.2, p.1))).Nodup :=
    htblnodup.map hswapinj
  have hsorted := List.sorted_insertionSort PairLeR
    ((find_successors db suffix n).map (fun p => (p.2, p.1)))
  have hperm := List.perm_insertionSort PairLeR
    ((find_successors db suffix n).map (fun p => (p.2, p.1)))
  have hnodups : (List.insertionSort PairLeR
      ((find_successors db suffix n).map (fun p => (p.2, p.1)))).Nodup :=
    hperm.nodup_iff.mpr hswap
  have hstrict : List.Pairwise pairLt (List.insertionSort PairLeR
      ((find_successors db suffix n).map (fun p => (p.2, p.1)))) := by
    refine (List.Pairwise.and hsorted hnodups).imp ?_
    rintro a b ⟨hle, hne⟩
    unfold PairLeR pairLe at hle
    unfold pairLt
    by_cases h1 : a.1 < b.1
    · exact Or.inl h1
    · by_cases h2 : b.1 < a.1
      · rw [if_neg h1, if_pos h2] at hle
        exact absurd hle (by simp)
      · rw [if_neg h1, if_neg h2] at hle
        rcases (strLe_iff _ _).mp hle with hs | hs
        · exact Or.inr ⟨by omega, hs⟩
        · exact absurd (Prod.ext (by omega) hs) hne
  constructor
  · rw [show rankSuccessors (find_successors db suffix n) =
      (List.insertionSort PairLeR
        ((find_successors db suffix n).map (fun p => (p.2, p.1)))).reverse from rfl]
    rw [List.pairwise_reverse]
    exact hstrict
  · exact (List.reverse_perm _).trans hperm

/-! ## Claim C7 — dead post-branch iterations of the suffix loop -/

/-- After the contig has been detached (a branching already happened),
a remainder of the suffix-length loop that performs no further
branching leaves the stack, the budget and the `enhanced` flag exactly
as they were: definitive finds only mutate the detached object. -/
theorem roundLoop_detached (db : List Str) (cfg : Config) (stopped : Nat → Bool) :
    ∀ (ls : List Nat) (s : List Frag) (c : Frag) (count : Int) (poll : Nat) (r : RoundRes),
      roundLoop db cfg stopped ls s c false count true poll = some r →
      r.branches = 0 →
      r.stack = s ∧ r.count = count ∧ r.enhanced = true := by
  intro ls
  induction ls with
  | nil =>
    intro s c count poll r h hb
    simp only [roundLoop, Option.some.injEq] at h
    subst h
    exact ⟨rfl, rfl, rfl⟩
  | cons l ls ih =>
    intro s c count poll r h hb
    simp only [roundLoop] at h
    split at h
    · simp only [Option.some.injEq] at h
      subst h
      exact ⟨rfl, rfl, rfl⟩
    · split at h
      · simp only [Bool.false_eq_true, if_false, Option.some.injEq] at h
        subst h
        exact ⟨rfl, rfl, rfl⟩
      · split at h
        · split at h
          · split at h
            · exact absurd h (by simp)
            · split at h
              · exact absurd h (by simp)
              · simp only [Option.some.injEq] at h
                subst h
                simp at hb
          · exact ih _ c count (poll + 1) r h hb
        · exact ih s c count (poll + 1) r h hb

/-- C7 (amended): a round of the as-written suffix-length loop in which
at most one branching step fires produces the same stack, budget and
`enhanced` flag as the variant that exits the loop immediately on
branching (and the identical full state when nothing happened at all),
so the two engines then proceed identically; the counterexample shows
that with two branchings in one round the final collections differ. -/
theorem c7_break_equivalence (db : List Str) (cfg : Config) (stopped : Nat → Bool) :
    ∀ (ls : List Nat) (s : List Frag) (c : Frag) (att : Bool) (count : Int) (enh : Bool)
      (poll : Nat) (r : RoundRes),
      roundLoop db cfg stopped ls s c att count enh poll = some r →
      r.branches ≤ 1 →
      ∃ r', roundLoopBreak db cfg stopped ls s c att count enh poll = some r' ∧
        r'.stack = r.stack ∧ r'.count = r.count ∧ r'.enhanced = r.enhanced ∧
        (r.enhanced = false → r' = r) := by
  intro ls
  induction ls with
  | nil =>
    intro s c att count enh poll r h hb
    simp only [roundLoop, Option.some.injEq] at h
    subst h
    exact ⟨_, rfl, rfl, rfl, rfl, fun _ => rfl⟩
  | cons l ls ih =>
    intro s c att count enh poll r h hb
    simp only [roundLoop] at h
    simp only [roundLoopBreak]
    split at h
    · rename_i hstop
      rw [if_pos hstop]
      simp only [Option.some.injEq] at h
      subst h
      exact ⟨_, rfl, rfl, rfl, rfl, fun _ => rfl⟩
    · rename_i hstop
      rw [if_neg hstop]
      split at h
      · simp only [Option.some.injEq] at h
        subst h
        exact ⟨_, rfl, rfl, rfl, rfl, fun _ => rfl⟩
      · split at h
        · split at h
          · rename_i hlen
            rw [if_pos hlen]
            split at h
            · exact absurd h (by simp)
            · split at h
              · exact absurd h (by simp)
              · rename_i r0 hin
                simp only [Option.some.injEq] at h
                subst h
                simp only at hb
                have hb0 : r0.branches = 0 := by omega
                obtain ⟨hs0, hc0, he0⟩ :=
                  roundLoop_detached db cfg stopped ls _ c _ (poll + 1) r0 hin hb0
                refine ⟨_, rfl, ?_, ?_, ?_, ?_⟩
                · exact hs0.symm
                · exact hc0.symm
                · simp [he0]
                · intro habs
                  simp only at habs
                  rw [he0] at habs
                  cases habs
          · rename_i hlen
            rw [if_neg hlen]
            exact ih s c att count enh (poll + 1) r h hb
        · exact ih s c att count enh (poll + 1) r h hb

/-- C7 amended, witness: an empty suffix-length list (no branching at
all) — the break variant returns the identical state. -/
theorem c7_break_equivalence_witness :
    roundLoop [] cexCfg (fun _ => false) [] [⟨OPEN, ['A']⟩] ⟨OPEN, ['A']⟩ true 1 false 0 =
        some ⟨[⟨OPEN, ['A']⟩], ⟨OPEN, ['A']⟩, true, 1, false, 0, 0⟩
    ∧ (⟨[⟨OPEN, ['A']⟩], ⟨OPEN, ['A']⟩, true, 1, false, 0, 0⟩ : RoundRes).branches ≤ 1
    ∧ ∃ r', roundLoopBreak [] cexCfg (fun _ => false) [] [⟨OPEN, ['A']⟩] ⟨OPEN, ['A']⟩
          true 1 false 0 = some r' ∧
        r'.stack = (⟨[⟨OPEN, ['A']⟩], ⟨OPEN, ['A']⟩, true, 1, false, 0, 0⟩ : RoundRes).stack ∧
        r'.count = (⟨[⟨OPEN, ['A']⟩], ⟨OPEN, ['A']⟩, true, 1, false, 0, 0⟩ : RoundRes).count ∧
        r'.enhanced =
          (⟨[⟨OPEN, ['A']⟩], ⟨OPEN, ['A']⟩, true, 1, false, 0, 0⟩ : RoundRes).enhanced ∧
        ((⟨[⟨OPEN, ['A']⟩], ⟨OPEN, ['A']⟩, true, 1, false, 0, 0⟩ : RoundRes).enhanced = false →
          r' = ⟨[⟨OPEN, ['A']⟩], ⟨OPEN, ['A']⟩, true, 1, false, 0, 0⟩) :=
  ⟨rfl, by decide,
   c7_break_equivalence [] cexCfg (fun _ => false) [] [⟨OPEN, ['A']⟩] ⟨OPEN, ['A']⟩
     true 1 false 0 ⟨[⟨OPEN, ['A']⟩], ⟨OPEN, ['A']⟩, true, 1, false, 0, 0⟩ rfl (by decide)⟩

/-- C7 counterexample.  The claim says the as-written engine and the
break-on-branching variant always produce the same final collection.
A fragment shorter than every suffix length issues the same query at
both suffix lengths of a round, branches twice, and the second
branching pops one freshly pushed child and pushes two more copies of
the detached original: the as-written run finalizes three fragments,
the break variant two. -/
theorem c7_counterexample :
    Enhancer.start 10 cexDb c7Cfg (fun _ => false) [⟨OPEN, [⟨OPEN, ['A']⟩]⟩] ≠
      Enhancer.startBreak 10 cexDb c7Cfg (fun _ => false) [⟨OPEN, [⟨OPEN, ['A']⟩]⟩]
    ∧ Enhancer.start 10 cexDb c7Cfg (fun _ => false) [⟨OPEN, [⟨OPEN, ['A']⟩]⟩] =
        some [⟨OPEN, [⟨TOO_LONG, ['A', 'C']⟩, ⟨TOO_LONG, ['A', 'G']⟩,
          ⟨TOO_LONG, ['A', 'G']⟩]⟩]
    ∧ Enhancer.startBreak 10 cexDb c7Cfg (fun _ => false) [⟨OPEN, [⟨OPEN, ['A']⟩]⟩] =
        some [⟨OPEN, [⟨TOO_LONG, ['A', 'C']⟩, ⟨TOO_LONG, ['A', 'G']⟩]⟩] := by
  refine ⟨by decide, by decide, by decide⟩

/-! ## Claim C4 — characterization of the loop-closure check -/

/-- What the anchored overlap regex accepts on `content + '#' + head`
when the content itself contains no `'#'`: the backtracking group must
stop exactly at the separator, so the match succeeds iff the whole
content is uppercase-`ACGT`, its length lies in `[omin, omax]`, and it
is a prefix of the head. -/
theorem opMatch_iff (omin omax : Nat) (content hd : Str) (hhash : '#' ∉ content) :
    opMatch omin omax (content ++ '#' :: hd) = true ↔
      (content.all acgtChar = true ∧ omin ≤ content.length ∧ content.length ≤ omax
        ∧ content <+: hd) := by
  have hdrop : (content ++ '#' :: hd).drop (content.length + 1) = hd := by
    have he : content ++ '#' :: hd = (content ++ ['#']) ++ hd := by simp
    have hlen' : content.length + 1 = (content ++ ['#']).length := by simp
    rw [he, hlen', List.drop_left]
  have htake : (content ++ '#' :: hd).take content.length = content :=
    List.take_left content ('#' :: hd)
  have hget : (content ++ '#' :: hd)[content.length]? = some '#' := by
    rw [List.getElem?_append_right (le_refl _)]
    simp
  unfold opMatch
  rw [List.any_eq_true]
  constructor
  · rintro ⟨l, hl, hcond⟩
    rw [List.mem_range] at hl
    simp only [Bool.and_eq_true, decide_eq_true_eq, beq_iff_eq] at hcond
    obtain ⟨⟨⟨⟨hmin, hall⟩, hhashl⟩, hlen⟩, hrep⟩ := hcond
    have hL : l = content.length := by
      rcases Nat.lt_trichotomy l content.length with hlt | heq | hgt
      · exfalso
        rw [List.getElem?_append, if_pos hlt] at hhashl
        exact hhash (List.getElem?_mem hhashl)
      · exact heq
      · exfalso
        have h2 : ((content ++ '#' :: hd).take l)[content.length]? = some '#' := by
          rw [List.getElem?_take, if_pos hgt]
          exact hget
        have h3 := (List.all_eq_true.mp hall) '#' (List.getElem?_mem h2)
        simp [acgtChar] at h3
    subst hL
    rw [htake] at hall
    rw [hdrop, htake] at hrep
    refine ⟨hall, hmin, by omega, ?_⟩
    rw [List.prefix_iff_eq_take]
    exact hrep.symm
  · rintro ⟨hall, hmin, hmax, hpre⟩
    refine ⟨content.length, List.mem_range.mpr (by omega), ?_⟩
    have hlenhd : content.length ≤ hd.length := hpre.length_le
    simp only [Bool.and_eq_true, decide_eq_true_eq, beq_iff_eq]
    refine ⟨⟨⟨⟨hmin, by rwa [htake]⟩, hget⟩, ?_⟩, ?_⟩
    · simp only [List.length_append, List.length_cons]
      omega
    · rw [hdrop, htake]
      exact (List.prefix_iff_eq_take.mp hpre).symm

/-- C4 counterexample.  The claim says no condition other than length
and prefix equality (in particular not the alphabet or letter case)
affects `is_overlapping_contig`.  The regex group is `[ACGT]` and the
pattern is compiled without `re.IGNORECASE`, so the lowercase content
`"a"`, of length 1 inside the window `[1, 1]` and equal to the
length-1 head of the (non-empty) supercontig `["a"]`, still yields
`false`. -/
theorem c4_counterexample :
    is_overlapping_contig [⟨CLOSED, [⟨CLOSED, ['a']⟩]⟩] 1 1 ⟨OPEN, ['a']⟩ = false
    ∧ 1 ≤ (['a'] : Str).length ∧ (['a'] : Str).length ≤ 1
    ∧ (['a'] : Str) <+: (⟨CLOSED, (['a'] : Str)⟩ : Frag).content := by
  refine ⟨by decide, by decide, by decide, by decide⟩

/-- C4 (amended): for a fragment whose content does not contain the
separator character `'#'` (which the source's string surgery reserves),
`is_overlapping_contig` returns true iff the content consists solely of
uppercase `A`/`C`/`G`/`T` characters, its length lies within
`[overlapping_min, overlapping_max]`, and it is character-for-character
the equal-length prefix of the head fragment of some supercontig with
at least one fragment; lowercase or other characters make it return
false regardless of the prefix relation. -/
theorem c4_overlap_characterization (arr : List SuperC) (omin omax : Nat) (st : String)
    (content : Str) (hhash : '#' ∉ content) :
    is_overlapping_contig arr omin omax ⟨st, content⟩ = true ↔
      (content.all acgtChar = true ∧ omin ≤ content.length ∧ content.length ≤ omax ∧
        ∃ sc ∈ arr, ∃ hd rest, sc.content = hd :: rest ∧ content <+: hd.content) := by
  unfold is_overlapping_contig
  rw [List.any_eq_true]
  constructor
  · rintro ⟨sc, hsc, hmatch⟩
    cases hc : sc.content with
    | nil =>
      rw [hc] at hmatch
      exact absurd hmatch (by simp)
    | cons hd rest =>
      rw [hc] at hmatch
      rw [opMatch_iff omin omax content hd.content hhash] at hmatch
      obtain ⟨h1, h2, h3, h4⟩ := hmatch
      exact ⟨h1, h2, h3, sc, hsc, hd, rest, hc, h4⟩
  · rintro ⟨h1, h2, h3, sc, hsc, hd, rest, hc, hpre⟩
    refine ⟨sc, hsc, ?_⟩
    rw [hc]
    exact (opMatch_iff omin omax content hd.content hhash).mpr ⟨h1, h2, h3, hpre⟩

/-- C4 amended, witness: the content `"A"` against a collection whose
first supercontig head is `"AC"`, window `[1, 2]`. -/
theorem c4_overlap_characterization_witness :
    ('#' ∉ (['A'] : Str)) ∧
    (is_overlapping_contig [⟨CLOSED, [⟨CLOSED, ['A', 'C']⟩]⟩] 1 2 ⟨OPEN, ['A']⟩ = true ↔
      ((['A'] : Str).all acgtChar = true ∧ 1 ≤ (['A'] : Str).length ∧
        (['A'] : Str).length ≤ 2 ∧
        ∃ sc ∈ ([⟨CLOSED, [⟨CLOSED, ['A', 'C']⟩]⟩] : List SuperC), ∃ hd rest,
          sc.content = hd :: rest ∧ (['A'] : Str) <+: hd.content)) :=
  ⟨by decide, c4_overlap_characterization [⟨CLOSED, [⟨CLOSED, ['A', 'C']⟩]⟩] 1 2 OPEN ['A']
    (by decide)⟩

/-! ## Claim C8 — idempotence on fully finalized collections -/

/-- The stack loop on an empty stack only replays the final (vacuous)
content append. -/
theorem whileLoopG_nil
    (roundF : List Frag → Frag → Bool → Int → Bool → Nat → Option RoundRes)
    (cfg : Config) (stopped : Nat → Bool) (fuel : Nat) (arr : List SuperC) (i : Nat)
    (count : Int) (poll : Nat) :
    whileLoopG roundF cfg stopped fuel arr i [] count poll =
      some (scAppend arr i [], poll) := by
  unfold whileLoopG
  rfl

/-- The supercontig loop leaves a collection without `OPEN` fragments
untouched: every supercontig is either skipped or yields an empty
stack, and the rebuilt content equals the original. -/
theorem enhLoopG_no_open
    (roundF : List Frag → Frag → Bool → Int → Bool → Nat → Option RoundRes)
    (cfg : Config) (fuel : Nat) :
    ∀ (rem : Nat) (arr : List SuperC) (i poll : Nat),
      rem + i = arr.length →
      (∀ sc ∈ arr, ∀ f ∈ sc.content, f.status ≠ OPEN) →
      ∃ poll', enhLoopG roundF cfg (fun _ => false) fuel rem arr i poll = some (arr, poll') := by
  intro rem
  induction rem with
  | zero => intro arr i poll _ _; exact ⟨poll, rfl⟩
  | succ rem ih =>
    intro arr i poll hlen h
    have hi : i < arr.length := by omega
    have hsc : arr[i]? = some arr[i] := List.getElem?_eq_getElem hi
    have hmem : arr[i] ∈ arr := List.getElem_mem hi
    by_cases hst : arr[i].status = OPEN
    · have hstack : arr[i].content.filter (fun f => f.status = OPEN) = [] := by
        rw [List.filter_eq_nil_iff]
        intro f hf
        simpa using h arr[i] hmem f hf
      have hkept : arr[i].content.filter (fun f => ¬ f.status = OPEN) = arr[i].content := by
        rw [List.filter_eq_self]
        intro f hf
        simpa using h arr[i] hmem f hf
      have hset : arr.set i
          ⟨arr[i].status, arr[i].content.filter (fun f => ¬ f.status = OPEN)⟩ = arr := by
        rw [hkept]
        exact set_getElem?_self arr i arr[i] hsc
      obtain ⟨p', hp⟩ := ih arr (i + 1) (poll + 1) (by omega) h
      refine ⟨p', ?_⟩
      unfold enhLoopG
      rw [if_neg (by simp)]
      simp only [hsc]
      rw [if_neg (by simp [hst])]
      rw [hstack, hset]
      rw [whileLoopG_nil, scAppend_nil]
      exact hp
    · obtain ⟨p', hp⟩ := ih arr (i + 1) (poll + 1) (by omega) h
      refine ⟨p', ?_⟩
      unfold enhLoopG
      rw [if_neg (by simp)]
      simp only [hsc]
      rw [if_pos hst]
      exact hp

/-- C8: running the engine to completion (no stop request) on a
collection in which no fragment has status `OPEN` returns the
collection unchanged — every supercontig keeps its status and its
fragments keep their contents, statuses and order. -/
theorem c8_idempotent_on_finalized (fuel : Nat) (db : List Str) (cfg : Config)
    (arr : List SuperC) (h : ∀ sc ∈ arr, ∀ f ∈ sc.content, f.status ≠ OPEN) :
    Enhancer.start fuel db cfg (fun _ => false) arr = some arr := by
  obtain ⟨p', hp⟩ := enhLoopG_no_open (roundLoop db cfg (fun _ => false) (suffixLens cfg))
    cfg fuel arr.length arr 0 0 (by omega) h
  unfold Enhancer.start
  rw [hp]
  rfl

/-- C8 witness: a collection holding only `CLOSED` and user-labelled
fragments passes through the engine unchanged. -/
theorem c8_idempotent_witness :
    (∀ sc ∈ ([⟨OPEN, [⟨CLOSED, ['A']⟩]⟩, ⟨"user", []⟩] : List SuperC),
      ∀ f ∈ sc.content, f.status ≠ OPEN)
    ∧ Enhancer.start 3 cexDb cexCfg (fun _ => false)
        [⟨OPEN, [⟨CLOSED, ['A']⟩]⟩, ⟨"user", []⟩] =
      some [⟨OPEN, [⟨CLOSED, ['A']⟩]⟩, ⟨"user", []⟩] :=
  ⟨by decide, c8_idempotent_on_finalized 3 cexDb cexCfg
    [⟨OPEN, [⟨CLOSED, ['A']⟩]⟩, ⟨"user", []⟩] (by decide)⟩
